import Mathlib

/-!
# Verification of `streams_point_numerator.py`

A shallow embedding of the core of `StreamsPointNumerator` (QGIS point
numbering along stream polylines) together with theorems settling the
frozen claims about its specification.

Conventions of the embedding:
* Python strings are Lean `String`s; `s[:-1]` is modelled by dropping the
  last character of `s.data`; `int(s)` on the digit strings used as
  numeric bases is modelled by `pyInt?` (decimal digits, `none` on any
  non-digit or empty input, mirroring `ValueError`).
* Python `None`/QGIS `NULL` attribute values are `Option.none`.
* QGIS geometry services (spatial index query, buffered intersection
  test, `lineLocatePoint`, `unaryUnion`+`mergeLines`) are external
  collaborators; they enter the embedding as explicit data or function
  parameters, never as stubs of repository logic.
* Distances along a line are modelled as `Int` (the claims under
  verification do not depend on fractional values).
* A raised exception is modelled by an `Option`/`Except` failure value.
-/

/-- Python `s[:-1]`: the string without its final character. -/
def pyStripLast (s : String) : String := String.mk s.data.dropLast

/-- One step of decimal digit accumulation: models `int()` consuming one
character of a digit string. -/
def pyIntStep (acc : Option Nat) (c : Char) : Option Nat :=
  match acc with
  | some n => if 48 ≤ c.toNat ∧ c.toNat ≤ 57 then some (n * 10 + (c.toNat - 48)) else none
  | none => none

/-- Models Python `int(s)` for the non-negative digit strings used by the
numbering code as numeric bases (`"12P"[:-1]` and the like); `none` models
the `ValueError` raised on an empty or non-digit string. -/
def pyInt? (s : String) : Option Nat :=
  match s.data with
  | [] => none
  | cs => cs.foldl pyIntStep (some 0)

/-- Structural evaluator behind `generate_letter_suffix`: `fuel` bounds the
recursion depth (the recursive argument `n / 26 - 1` is strictly smaller
than `n`, so `fuel = n` always suffices; the `fuel = 0` fallback `""` is
unreachable then, see `glsAux_fuel_irrel`). -/
def glsAux : Nat → Nat → String
  | 0, n =>
    if n < 26 then String.singleton (Char.ofNat (97 + n)) else ""
  | f + 1, n =>
    if n < 26 then String.singleton (Char.ofNat (97 + n))
    else glsAux f (n / 26 - 1) ++ String.singleton (Char.ofNat (97 + n % 26))

/-- `generate_letter_suffix` (source lines 223-236): base-26 letter suffix,
`0 = "a"`, `25 = "z"`, `26 = "aa"`; the source recursion
`generate_letter_suffix (num // 26 - 1) + chr(ord("a") + num % 26)` is
recovered exactly by `generate_letter_suffix_lt` and
`generate_letter_suffix_ge` below. -/
def generate_letter_suffix (num : Nat) : String := glsAux num num

theorem glsAux_fuel_irrel :
    ∀ f₁ n, n ≤ f₁ → ∀ f₂, n ≤ f₂ → glsAux f₁ n = glsAux f₂ n := by
  intro f₁
  induction f₁ with
  | zero =>
    intro n hn f₂ _
    interval_cases n
    cases f₂ <;> simp [glsAux]
  | succ f ih =>
    intro n hn f₂ h₂
    by_cases h : n < 26
    · cases f₂ <;> simp [glsAux, h]
    · cases f₂ with
      | zero => omega
      | succ g =>
        have hdiv : n / 26 < n := Nat.div_lt_self (by omega) (by omega)
        have hrec : n / 26 - 1 ≤ f := by omega
        have hrec' : n / 26 - 1 ≤ g := by omega
        simp only [glsAux, if_neg h]
        rw [ih (n / 26 - 1) hrec g hrec']

/-- The `num < 26` branch of the source recursion. -/
theorem generate_letter_suffix_lt {num : Nat} (h : num < 26) :
    generate_letter_suffix num = String.singleton (Char.ofNat (97 + num)) := by
  unfold generate_letter_suffix
  cases num <;> simp [glsAux, h]

/-- The `num ≥ 26` branch of the source recursion. -/
theorem generate_letter_suffix_ge {num : Nat} (h : 26 ≤ num) :
    generate_letter_suffix num =
      generate_letter_suffix (num / 26 - 1) ++ String.singleton (Char.ofNat (97 + num % 26)) := by
  obtain ⟨f, rfl⟩ : ∃ f, num = f + 1 := ⟨num - 1, by omega⟩
  show glsAux (f + 1) (f + 1) = _
  simp only [glsAux, if_neg (show ¬ f + 1 < 26 by omega)]
  rw [glsAux_fuel_irrel f ((f + 1) / 26 - 1) (by omega) ((f + 1) / 26 - 1) (by omega)]
  rfl

/-- A `stream_point` record as built by `assign_points_to_streams`
(source lines 197-202) and extended with the `index` key at lines 208-210. -/
structure StreamPoint where
  point_id : Nat
  distance : Int
  old_number : Option String
  new_number : Option String
  index : Nat
deriving DecidableEq

/-- Default record used only to give total `getD` lookups a value. -/
def dfltSP : StreamPoint := ⟨0, 0, none, none, 0⟩

/-- Indexed map starting at index `i0`; the building block used to model
the Python `for i in range(...)` loops that write `stream_points[i]`. -/
def mapIdxFrom (f : Nat → StreamPoint → StreamPoint) (i0 : Nat) : List StreamPoint → List StreamPoint
  | [] => []
  | x :: xs => f i0 x :: mapIdxFrom f (i0 + 1) xs

/-- `numerate_points_before_old` (source lines 238-252): every position
strictly before the first legacy point's `index` gets
`f"{i + 1}Pnowy"`. Called only with a non-empty `old_points`; on `[]`
the (unreachable in the source) value is the unchanged list. -/
def numerate_points_before_old (stream_points old_points : List StreamPoint) : List StreamPoint :=
  match old_points with
  | [] => stream_points
  | firstOld :: _ =>
    mapIdxFrom
      (fun i sp =>
        if i < firstOld.index then
          { sp with new_number := some (Nat.repr (i + 1) ++ "Pnowy") }
        else sp)
      0 stream_points

/-- The inner loop of `numerate_points_between_old` (source lines 303-306):
positions `curIdx + 1 .. curIdx + count` receive
`f"{base}P{generate_letter_suffix(j)}"` with `j` the 0-based offset into
the gap. -/
def numerate_gap (sps : List StreamPoint) (base : String) (curIdx count : Nat) : List StreamPoint :=
  mapIdxFrom
    (fun i sp =>
      if curIdx < i ∧ i ≤ curIdx + count then
        { sp with new_number := some (base ++ "P" ++ generate_letter_suffix (i - curIdx - 1)) }
      else sp)
    0 sps

/-- `numerate_points_between_old` (source lines 277-306): for each adjacent
pair of legacy points, number the `next.index - cur.index - 1` intervening
points with the current legacy identifier stripped of its final character
(`old_number[:-1]`), the marker `"P"`, and successive letter suffixes. -/
def numerate_points_between_old (stream_points old_points : List StreamPoint) : List StreamPoint :=
  (List.range (old_points.length - 1)).foldl
    (fun acc k =>
      let cur := old_points.getD k dfltSP
      let nxt := old_points.getD (k + 1) dfltSP
      let count := nxt.index - cur.index - 1
      if 0 < count then
        numerate_gap acc (pyStripLast (cur.old_number.getD "")) cur.index count
      else acc)
    stream_points

/-- `numerate_points_after_old` (source lines 254-275): when points follow
the last legacy point, parse its identifier minus the final character as
the numeric base and number position `last.index + k` as
`f"{base + k}P"`; a failing parse models the `ValueError` escaping as
`RuntimeError`. -/
def numerate_points_after_old (stream_points old_points : List StreamPoint) :
    Option (List StreamPoint) :=
  match old_points.getLast? with
  | none => some stream_points
  | some lastOld =>
    if lastOld.index + 1 < stream_points.length then
      match pyInt? (pyStripLast (lastOld.old_number.getD "")) with
      | none => none
      | some base =>
        some (mapIdxFrom
          (fun i sp =>
            if lastOld.index < i then
              { sp with new_number := some (Nat.repr (base + (i - lastOld.index)) ++ "P") }
            else sp)
          0 stream_points)
    else some stream_points

/-- Whether a stream point carries a legacy ("old") number; the predicate
used at source line 212 to build `stream_old_points`. -/
def hasOld (sp : StreamPoint) : Bool := sp.old_number.isSome

/-- The body of `numerate_points` (source lines 316-327) for one stream's
sorted point list: with no legacy points, number `1P .. nP`; otherwise run
the three zone passes in order.  `old_points` is the sorted sublist with a
legacy number, exactly as `assign_points_to_streams` builds it. -/
def numerate_points_line (stream_points : List StreamPoint) : Option (List StreamPoint) :=
  let old_points := stream_points.filter hasOld
  if old_points.isEmpty then
    some (mapIdxFrom (fun i sp => { sp with new_number := some (Nat.repr (i + 1) ++ "P") }) 0 stream_points)
  else
    numerate_points_after_old
      (numerate_points_between_old
        (numerate_points_before_old stream_points old_points) old_points)
      old_points

example : pyInt? (pyStripLast "12P") = some 12 := by decide
example : pyStripLast "" = "" := by decide
example : pyInt? "" = none := by decide
example : pyInt? "P" = none := by decide

/-! ## Geometry Unifier (`union_stream_geometries`, source lines 92-155)

Vertices are 2-D points with exact coordinates (`QgsPointXY` equality);
`Int × Int` suffices for the claims.  The external geometry services
`QgsGeometry.unaryUnion` + `QgsGeometry.mergeLines` enter as a parameter
`mergeFn` producing the merged geometry's parts (a multi-part result has
more than one entry). -/

/-- A vertex of a stream polyline. -/
abbrev Pt : Type := Int × Int

/-- One feature of the streams layer: its `oznaczenie` attribute (`none`
models `None`/`NULL`) and its vertex sequence (`asPolyline`, after the
multipart-to-single conversion at source lines 115-118). -/
structure StreamFeature where
  mark : Option String
  polyline : List Pt

/-- The validity filter of source lines 104-123: a fragment participates
for `mark` iff its attribute equals `mark`, `mark` is non-blank, and the
polyline has at least 2 vertices (this subsumes the empty-geometry skip). -/
def validForMark (fs : List StreamFeature) (mark : String) : List (List Pt) :=
  (fs.filter (fun s => s.mark == some mark && !(mark == "") && decide (2 ≤ s.polyline.length))).map
    (fun s => s.polyline)

/-- `stream_start_points[mark]` (source line 127): first vertices of the
valid fragments, as a list used only through membership. -/
def startPoints (fs : List StreamFeature) (mark : String) : List Pt :=
  (validForMark fs mark).map (fun p => p.headI)

/-- `stream_end_points[mark]` (source line 128): last vertices of the
valid fragments. -/
def endPoints (fs : List StreamFeature) (mark : String) : List Pt :=
  (validForMark fs mark).map (fun p => p.getLastD ((0 : Int), (0 : Int)))

/-- The merged-but-not-yet-direction-corrected polyline for `mark`
(source lines 132-140): a single valid fragment is taken unchanged;
otherwise the fragments are merged by the external service and, if the
result is multi-part (`isMultipart`), `convertToSingleType` keeps only the
first part. -/
def mergedFor (mergeFn : List (List Pt) → List (List Pt)) (fs : List StreamFeature)
    (mark : String) : List Pt :=
  match validForMark fs mark with
  | [g] => g
  | frags =>
    match mergeFn frags with
    | [] => []
    | part :: _ => part

/-- The unified, direction-corrected polyline for `mark`
(source lines 142-149): if the merged polyline's first vertex lies in the
pre-merge end-vertex set, the vertex sequence is reversed.  The `error`
case models the `IndexError` on `unified_polyline[0]` for an empty merge
result escaping as `RuntimeError` (source lines 153-155); it is the only
failure path of the stage. -/
def unified_geometry_for (mergeFn : List (List Pt) → List (List Pt)) (fs : List StreamFeature)
    (mark : String) : Except String (List Pt) :=
  match mergedFor mergeFn fs mark with
  | [] => Except.error "Nie udalo sie polaczyc geometrii ciekow"
  | p :: rest =>
    if p ∈ endPoints fs mark then Except.ok ((p :: rest).reverse)
    else Except.ok (p :: rest)

/-! ## Point Assigner (`assign_points_to_streams`, source lines 157-217) -/

/-- A feature of the points layer: whether its geometry is empty, and its
`numer-stary` attribute (`none` models `None`/`NULL`). -/
structure PointFeat where
  geomEmpty : Bool
  old_raw : Option String

/-- One unified stream as seen by the assigner, with its external
geometric services made explicit: `candidates` is the spatial-index
bounding-box query result (source line 172), `buffHit pid` the
buffered-intersection test (source lines 182-184), `distAt pid` the
`lineLocatePoint` arc-length distance (source line 187). -/
structure UStream where
  mark : String
  geomEmpty : Bool
  candidates : List Nat
  buffHit : Nat → Bool
  distAt : Nat → Int

/-- Legacy-number normalisation (source lines 188-195): a present,
non-`NULL`, non-empty value is kept (and copied into `new_number`);
otherwise both fields become `None`. -/
def normalizeOld (raw : Option String) : Option String :=
  match raw with
  | some v => if v = "" then none else some v
  | none => none

/-- The `stream_point` record built at source lines 197-203 for candidate
`pid` of stream `s`. -/
def mkStreamPoint (feat : Nat → PointFeat) (s : UStream) (pid : Nat) : StreamPoint :=
  { point_id := pid
    distance := s.distAt pid
    old_number := normalizeOld (feat pid).old_raw
    new_number := normalizeOld (feat pid).old_raw
    index := 0 }

/-- `streams_points[s.mark]` before sorting (source lines 166-203): the
candidates of `s`, skipping an empty stream geometry, empty point
geometries, and points whose geometry misses the buffered stream. -/
def assignLine (feat : Nat → PointFeat) (s : UStream) : List StreamPoint :=
  if s.geomEmpty then []
  else
    s.candidates.filterMap (fun pid =>
      if (feat pid).geomEmpty then none
      else if s.buffHit pid then some (mkStreamPoint feat s pid)
      else none)

/-- Stable insertion into a distance-sorted list: an element goes after
all earlier elements with the same distance, matching the stability of
Python's `list.sort` with `key=itemgetter("distance")`. -/
def insertByDist (x : StreamPoint) : List StreamPoint → List StreamPoint
  | [] => [x]
  | y :: ys => if x.distance ≤ y.distance then x :: y :: ys else y :: insertByDist x ys

/-- `stream_points.sort(key=itemgetter("distance"))` (source line 207):
stable sort by distance.  A stable sort's output is uniquely determined by
the key order and the input order, so insertion sort models Python's sort
exactly. -/
def sortPoints : List StreamPoint → List StreamPoint
  | [] => []
  | x :: xs => insertByDist x (sortPoints xs)

/-- The `index` assignment of source lines 208-210: position in the sorted
list. -/
def indexPoints (l : List StreamPoint) : List StreamPoint :=
  mapIdxFrom (fun i sp => { sp with index := i }) 0 l

/-- One stream's full path through the Point Assigner and the Sequencer:
assign (lines 166-203), sort and index (lines 205-213), numerate
(lines 316-327). -/
def processLine (feat : Nat → PointFeat) (s : UStream) : Option (List StreamPoint) :=
  numerate_points_line (indexPoints (sortPoints (assignLine feat s)))

/-! ## Helper lemmas about the embedding's building blocks -/

theorem length_mapIdxFrom (f : Nat → StreamPoint → StreamPoint) :
    ∀ (i0 : Nat) (l : List StreamPoint), (mapIdxFrom f i0 l).length = l.length := by
  intro i0 l
  induction l generalizing i0 with
  | nil => rfl
  | cons x xs ih => simp [mapIdxFrom, ih]

theorem getD_mapIdxFrom (f : Nat → StreamPoint → StreamPoint) :
    ∀ (i0 : Nat) (l : List StreamPoint) (j : Nat), j < l.length →
      (mapIdxFrom f i0 l).getD j dfltSP = f (i0 + j) (l.getD j dfltSP) := by
  intro i0 l
  induction l generalizing i0 with
  | nil => intro j hj; simp at hj
  | cons x xs ih =>
    intro j hj
    cases j with
    | zero => simp [mapIdxFrom]
    | succ j' =>
      have hj' : j' < xs.length := by simpa using hj
      have := ih (i0 + 1) j' hj'
      simpa [mapIdxFrom, Nat.add_assoc, Nat.add_comm 1 j'] using this

theorem mem_mapIdxFrom {a : StreamPoint} {f : Nat → StreamPoint → StreamPoint} :
    ∀ {i0 : Nat} {l : List StreamPoint},
      a ∈ mapIdxFrom f i0 l ↔ ∃ j, ∃ _ : j < l.length, a = f (i0 + j) (l.getD j dfltSP) := by
  intro i0 l
  induction l generalizing i0 with
  | nil => simp [mapIdxFrom]
  | cons x xs ih =>
    constructor
    · intro h
      rcases List.mem_cons.mp h with h0 | hx
      · exact ⟨0, by simp, by simpa using h0⟩
      · rcases ih.mp hx with ⟨j, hj, hval⟩
        exact ⟨j + 1, by simpa using Nat.succ_lt_succ hj,
          by simpa [Nat.add_assoc, Nat.add_comm 1 j] using hval⟩
    · rintro ⟨j, hj, hval⟩
      cases j with
      | zero =>
        exact List.mem_cons.mpr (Or.inl (by simpa using hval))
      | succ j' =>
        refine List.mem_cons.mpr (Or.inr (ih.mpr ⟨j', by simpa using hj, ?_⟩))
        simpa [Nat.add_assoc, Nat.add_comm 1 j'] using hval

theorem mem_insertByDist {a x : StreamPoint} :
    ∀ {l : List StreamPoint}, a ∈ insertByDist x l ↔ a = x ∨ a ∈ l := by
  intro l
  induction l with
  | nil => simp [insertByDist]
  | cons y ys ih =>
    by_cases h : x.distance ≤ y.distance
    · simp [insertByDist, h]
    · simp only [insertByDist, if_neg h, List.mem_cons, ih]
      tauto

theorem mem_sortPoints {a : StreamPoint} :
    ∀ {l : List StreamPoint}, a ∈ sortPoints l ↔ a ∈ l := by
  intro l
  induction l with
  | nil => simp [sortPoints]
  | cons x xs ih => simp [sortPoints, mem_insertByDist, ih]

theorem mem_getD_of_lt {l : List StreamPoint} {j : Nat} (h : j < l.length) :
    l.getD j dfltSP ∈ l := by
  rw [List.getD_eq_getElem l dfltSP h]
  exact List.getElem_mem h

theorem mem_iff_getD {a : StreamPoint} {l : List StreamPoint} :
    a ∈ l ↔ ∃ j, ∃ _ : j < l.length, l.getD j dfltSP = a := by
  constructor
  · intro h
    rcases List.mem_iff_getElem.mp h with ⟨j, hj, hv⟩
    exact ⟨j, hj, by rw [List.getD_eq_getElem l dfltSP hj]; exact hv⟩
  · rintro ⟨j, hj, hv⟩
    rw [← hv]
    exact mem_getD_of_lt hj

/-- The invariant established by `indexPoints`: position `j` carries
`index = i0 + j` (with `i0 = 0` at the top level; the offset form makes
induction possible). -/
def hIdxFrom (l : List StreamPoint) (i0 : Nat) : Prop :=
  ∀ j, j < l.length → (l.getD j dfltSP).index = i0 + j

theorem hIdxFrom_cons {x : StreamPoint} {xs : List StreamPoint} {i0 : Nat}
    (h : hIdxFrom (x :: xs) i0) : hIdxFrom xs (i0 + 1) := by
  intro j hj
  have := h (j + 1) (by simpa using Nat.succ_lt_succ hj)
  simpa [Nat.add_assoc, Nat.add_comm 1 j] using this

theorem hIdxFrom_head {x : StreamPoint} {xs : List StreamPoint} {i0 : Nat}
    (h : hIdxFrom (x :: xs) i0) : x.index = i0 := by
  simpa using h 0 (by simp)

theorem index_lower_bound {l : List StreamPoint} {i0 : Nat} (hidx : hIdxFrom l i0)
    {a : StreamPoint} (ha : a ∈ l) : i0 ≤ a.index := by
  rcases mem_iff_getD.mp ha with ⟨j, hj, hv⟩
  have h2 := hidx j hj
  rw [hv] at h2
  omega

/-- Positions strictly before the first legacy point's `index` carry no
legacy number. -/
theorem filter_head_min :
    ∀ (l : List StreamPoint) (i0 : Nat), hIdxFrom l i0 →
      ∀ (o : StreamPoint) (rest : List StreamPoint), l.filter hasOld = o :: rest →
        ∀ j, j < l.length → i0 + j < o.index → hasOld (l.getD j dfltSP) = false := by
  intro l
  induction l with
  | nil => intro i0 _ o rest h; simp at h
  | cons x xs ih =>
    intro i0 hidx o rest hfil j hj hlt
    by_cases hq : hasOld x
    · have hox : o = x := by
        rw [List.filter_cons_of_pos hq] at hfil
        exact (List.cons_eq_cons.mp hfil.symm).1
      subst hox
      have hx := hIdxFrom_head hidx
      omega
    · rw [List.filter_cons_of_neg (by simpa using hq)] at hfil
      cases j with
      | zero => simpa using (by simpa using hq : hasOld x = false)
      | succ j' =>
        have hj' : j' < xs.length := by simpa using hj
        have := ih (i0 + 1) (hIdxFrom_cons hidx) o rest hfil j' hj' (by omega)
        simpa using this

/-- Positions strictly after the last legacy point's `index` carry no
legacy number. -/
theorem filter_last_max :
    ∀ (l : List StreamPoint) (i0 : Nat), hIdxFrom l i0 →
      ∀ (o : StreamPoint), (l.filter hasOld).getLast? = some o →
        ∀ j, j < l.length → o.index < i0 + j → hasOld (l.getD j dfltSP) = false := by
  intro l
  induction l with
  | nil => intro i0 _ o h; simp at h
  | cons x xs ih =>
    intro i0 hidx o hlast j hj hgt
    by_cases hq : hasOld x
    · rw [List.filter_cons_of_pos hq] at hlast
      rcases hfx : xs.filter hasOld with _ | ⟨y, ys⟩
      · have : o = x := by
          rw [hfx] at hlast
          simpa using hlast.symm
        subst this
        have hx := hIdxFrom_head hidx
        cases j with
        | zero => omega
        | succ j' =>
          have hj' : j' < xs.length := by simpa using hj
          have hnone := List.filter_eq_nil_iff.mp hfx
          have := hnone _ (mem_getD_of_lt hj')
          simpa using this
      · rw [hfx] at hlast
        rw [List.getLast?_cons_cons] at hlast
        cases j with
        | zero =>
          have ho : o ∈ xs.filter hasOld := by
            rw [hfx]
            exact List.mem_of_mem_getLast? hlast
          have ho' : o ∈ xs := List.mem_of_mem_filter ho
          have := index_lower_bound (hIdxFrom_cons hidx) ho'
          omega
        | succ j' =>
          have hj' : j' < xs.length := by simpa using hj
          have := ih (i0 + 1) (hIdxFrom_cons hidx) o (by rw [hfx]; exact hlast) j' hj' (by omega)
          simpa using this
    · rw [List.filter_cons_of_neg (by simpa using hq)] at hlast
      cases j with
      | zero => simpa using (by simpa using hq : hasOld x = false)
      | succ j' =>
        have hj' : j' < xs.length := by simpa using hj
        have := ih (i0 + 1) (hIdxFrom_cons hidx) o hlast j' hj' (by omega)
        simpa using this

/-- Positions strictly between the `index`es of two consecutive legacy
points carry no legacy number. -/
theorem filter_consec_gap :
    ∀ (l : List StreamPoint) (i0 : Nat), hIdxFrom l i0 →
      ∀ (k : Nat), k + 1 < (l.filter hasOld).length →
        ∀ j, j < l.length →
          ((l.filter hasOld).getD k dfltSP).index < i0 + j →
          i0 + j < ((l.filter hasOld).getD (k + 1) dfltSP).index →
          hasOld (l.getD j dfltSP) = false := by
  intro l
  induction l with
  | nil => intro i0 _ k hk; simp at hk
  | cons x xs ih =>
    intro i0 hidx k hk j hj hlo hhi
    by_cases hq : hasOld x
    · rw [List.filter_cons_of_pos hq] at hk hlo hhi
      cases k with
      | zero =>
        have hx := hIdxFrom_head hidx
        simp only [List.getD_cons_zero] at hlo
        rcases hfx : xs.filter hasOld with _ | ⟨y, ys⟩
        · rw [hfx] at hk; simp at hk
        · rw [hfx] at hhi
          simp only [List.getD_cons_succ, List.getD_cons_zero] at hhi
          cases j with
          | zero => omega
          | succ j' =>
            have hj' : j' < xs.length := by simpa using hj
            have := filter_head_min xs (i0 + 1) (hIdxFrom_cons hidx) y ys hfx j' hj' (by omega)
            simpa using this
      | succ k' =>
        simp only [List.getD_cons_succ] at hlo hhi
        have hk' : k' + 1 < (xs.filter hasOld).length := by simpa using hk
        cases j with
        | zero =>
          have hmem : (xs.filter hasOld).getD k' dfltSP ∈ xs.filter hasOld :=
            mem_getD_of_lt (by omega)
          have := index_lower_bound (hIdxFrom_cons hidx) (List.mem_of_mem_filter hmem)
          omega
        | succ j' =>
          have hj' : j' < xs.length := by simpa using hj
          have := ih (i0 + 1) (hIdxFrom_cons hidx) k' hk' j' hj' (by omega) (by omega)
          simpa using this
    · rw [List.filter_cons_of_neg (by simpa using hq)] at hk hlo hhi
      cases j with
      | zero => simpa using (by simpa using hq : hasOld x = false)
      | succ j' =>
        have hj' : j' < xs.length := by simpa using hj
        have := ih (i0 + 1) (hIdxFrom_cons hidx) k hk j' hj' (by omega) (by omega)
        simpa using this

/-- The numbering passes only write `new_number`: length and all other
fields are untouched at every position. -/
def keepsSkeleton (l l' : List StreamPoint) : Prop :=
  l'.length = l.length ∧ ∀ j, j < l.length →
    ((l'.getD j dfltSP).point_id = (l.getD j dfltSP).point_id ∧
     (l'.getD j dfltSP).distance = (l.getD j dfltSP).distance ∧
     (l'.getD j dfltSP).old_number = (l.getD j dfltSP).old_number ∧
     (l'.getD j dfltSP).index = (l.getD j dfltSP).index)

theorem keepsSkeleton_refl (l : List StreamPoint) : keepsSkeleton l l :=
  ⟨rfl, fun _ _ => ⟨rfl, rfl, rfl, rfl⟩⟩

theorem keepsSkeleton_trans {l₁ l₂ l₃ : List StreamPoint}
    (h₁ : keepsSkeleton l₁ l₂) (h₂ : keepsSkeleton l₂ l₃) : keepsSkeleton l₁ l₃ := by
  obtain ⟨hl₁, hf₁⟩ := h₁
  obtain ⟨hl₂, hf₂⟩ := h₂
  refine ⟨hl₂.trans hl₁, fun j hj => ?_⟩
  have a := hf₁ j hj
  have b := hf₂ j (by omega)
  exact ⟨b.1.trans a.1, b.2.1.trans a.2.1, b.2.2.1.trans a.2.2.1, b.2.2.2.trans a.2.2.2⟩

/-- A `mapIdxFrom` whose function only rewrites `new_number` keeps the
skeleton. -/
theorem keepsSkeleton_mapIdxFrom {f : Nat → StreamPoint → StreamPoint}
    (hf : ∀ i sp, (f i sp).point_id = sp.point_id ∧ (f i sp).distance = sp.distance ∧
      (f i sp).old_number = sp.old_number ∧ (f i sp).index = sp.index)
    (l : List StreamPoint) : keepsSkeleton l (mapIdxFrom f 0 l) := by
  refine ⟨length_mapIdxFrom f 0 l, fun j hj => ?_⟩
  rw [getD_mapIdxFrom f 0 l j hj]
  exact hf (0 + j) (l.getD j dfltSP)

theorem keepsSkeleton_before (sps old : List StreamPoint) :
    keepsSkeleton sps (numerate_points_before_old sps old) := by
  cases old with
  | nil => exact keepsSkeleton_refl sps
  | cons o rest =>
    apply keepsSkeleton_mapIdxFrom
    intro i sp
    by_cases h : i < o.index <;> simp [h]

theorem keepsSkeleton_gap (sps : List StreamPoint) (base : String) (curIdx count : Nat) :
    keepsSkeleton sps (numerate_gap sps base curIdx count) := by
  apply keepsSkeleton_mapIdxFrom
  intro i sp
  by_cases h : curIdx < i ∧ i ≤ curIdx + count <;> simp [h]

theorem keepsSkeleton_foldl {step : List StreamPoint → Nat → List StreamPoint}
    (hstep : ∀ acc k, keepsSkeleton acc (step acc k)) :
    ∀ (L : List Nat) (acc : List StreamPoint), keepsSkeleton acc (L.foldl step acc) := by
  intro L
  induction L with
  | nil => intro acc; exact keepsSkeleton_refl acc
  | cons k ks ih =>
    intro acc
    exact keepsSkeleton_trans (hstep acc k) (ih (step acc k))

theorem keepsSkeleton_between (sps old : List StreamPoint) :
    keepsSkeleton sps (numerate_points_between_old sps old) := by
  unfold numerate_points_between_old
  apply keepsSkeleton_foldl
  intro acc k
  dsimp only
  split
  · exact keepsSkeleton_gap acc _ _ _
  · exact keepsSkeleton_refl acc

theorem keepsSkeleton_after {sps old out : List StreamPoint}
    (h : numerate_points_after_old sps old = some out) : keepsSkeleton sps out := by
  unfold numerate_points_after_old at h
  split at h
  · cases h
    exact keepsSkeleton_refl sps
  · rename_i lastO heq
    split at h
    · split at h
      · exact absurd h (by simp)
      · rw [Option.some.injEq] at h
        subst h
        apply keepsSkeleton_mapIdxFrom
        intro i sp
        by_cases hc : lastO.index < i <;> simp [hc]
    · cases h
      exact keepsSkeleton_refl sps

theorem keepsSkeleton_numerate {sps out : List StreamPoint}
    (h : numerate_points_line sps = some out) : keepsSkeleton sps out := by
  simp only [numerate_points_line] at h
  split at h
  · rw [Option.some.injEq] at h
    subst h
    apply keepsSkeleton_mapIdxFrom
    intro i sp
    simp
  · exact keepsSkeleton_trans
      (keepsSkeleton_trans (keepsSkeleton_before sps (sps.filter hasOld))
        (keepsSkeleton_between _ (sps.filter hasOld)))
      (keepsSkeleton_after h)

/-- `numerate_gap` leaves every position outside `curIdx+1 .. curIdx+count`
unchanged. -/
theorem getD_gap_untouched {base : String} {curIdx count i : Nat} (acc : List StreamPoint)
    (hout : ¬(curIdx < i ∧ i ≤ curIdx + count)) :
    (numerate_gap acc base curIdx count).getD i dfltSP = acc.getD i dfltSP := by
  by_cases hi : i < acc.length
  · unfold numerate_gap
    rw [getD_mapIdxFrom _ 0 acc i hi]
    simp only [Nat.zero_add]
    rw [if_neg (by omega)]
  · have h1 : (numerate_gap acc base curIdx count).length = acc.length :=
      (keepsSkeleton_gap acc base curIdx count).1
    rw [List.getD_eq_default acc dfltSP (by omega),
      List.getD_eq_default (numerate_gap acc base curIdx count) dfltSP (by omega)]

/-- The written positions of `numerate_gap`. -/
theorem getD_gap_written {base : String} {curIdx count i : Nat} (acc : List StreamPoint)
    (hi : i < acc.length) (hin : curIdx < i ∧ i ≤ curIdx + count) :
    (numerate_gap acc base curIdx count).getD i dfltSP =
      { acc.getD i dfltSP with
        new_number := some (base ++ "P" ++ generate_letter_suffix (i - curIdx - 1)) } := by
  unfold numerate_gap
  rw [getD_mapIdxFrom _ 0 acc i hi]
  simp only [Nat.zero_add]
  rw [if_pos (by omega)]

/-- Generic preservation of one position through a fold whose steps leave
that position unchanged. -/
theorem foldl_getD_preserve {step : List StreamPoint → Nat → List StreamPoint} {i : Nat} :
    ∀ (L : List Nat) (acc : List StreamPoint),
      (∀ acc' k, k ∈ L → (step acc' k).getD i dfltSP = acc'.getD i dfltSP) →
      (L.foldl step acc).getD i dfltSP = acc.getD i dfltSP := by
  intro L
  induction L with
  | nil => intro acc _; rfl
  | cons k ks ih =>
    intro acc hstep
    rw [List.foldl_cons]
    rw [ih (step acc k) (fun acc' k' hk' => hstep acc' k' (List.mem_cons_of_mem _ hk'))]
    exact hstep acc k (List.mem_cons_self _ _)

/-- `numerate_points_before_old` leaves positions at or after the first
legacy `index` unchanged. -/
theorem getD_before_untouched {sps : List StreamPoint} {o : StreamPoint}
    {rest : List StreamPoint} {i : Nat} (hge : ¬ i < o.index) :
    (numerate_points_before_old sps (o :: rest)).getD i dfltSP = sps.getD i dfltSP := by
  by_cases hi : i < sps.length
  · unfold numerate_points_before_old
    rw [getD_mapIdxFrom _ 0 sps i hi]
    simp only [Nat.zero_add]
    rw [if_neg (by omega)]
  · have h1 : (numerate_points_before_old sps (o :: rest)).length = sps.length :=
      (keepsSkeleton_before sps (o :: rest)).1
    rw [List.getD_eq_default sps dfltSP (by omega),
      List.getD_eq_default (numerate_points_before_old sps (o :: rest)) dfltSP (by omega)]

/-- `numerate_points_between_old` leaves position `i` unchanged provided
`i` lies in no gap between consecutive legacy `index`es. -/
theorem getD_between_untouched {sps old : List StreamPoint} {i : Nat}
    (hout : ∀ k, k + 1 < old.length →
      ¬((old.getD k dfltSP).index < i ∧
        i < (old.getD (k + 1) dfltSP).index)) :
    (numerate_points_between_old sps old).getD i dfltSP = sps.getD i dfltSP := by
  unfold numerate_points_between_old
  apply foldl_getD_preserve
  intro acc' k hk
  have hklt : k < old.length - 1 := List.mem_range.mp hk
  dsimp only
  split
  · rename_i hcount
    apply getD_gap_untouched
    have := hout k (by omega)
    omega
  · rfl

/-- Core preservation fact: on an `index = position` list, the three-zone
numbering (and case A) never rewrites a position that carries a legacy
number. -/
theorem numerate_untouched {sps out : List StreamPoint} (hidx : hIdxFrom sps 0)
    (h : numerate_points_line sps = some out) :
    ∀ j, j < sps.length → hasOld (sps.getD j dfltSP) = true →
      out.getD j dfltSP = sps.getD j dfltSP := by
  intro j hj hq
  simp only [numerate_points_line] at h
  split at h
  · rename_i hemp
    exfalso
    have hnil := List.filter_eq_nil_iff.mp (List.isEmpty_iff.mp hemp)
    exact absurd hq (by simpa using hnil _ (mem_getD_of_lt hj))
  · rename_i hemp
    rcases hO : sps.filter hasOld with _ | ⟨o, rest⟩
    · rw [hO] at hemp; simp at hemp
    · rw [hO] at h
      have hl1 : (numerate_points_before_old sps (o :: rest)).length = sps.length :=
        (keepsSkeleton_before sps (o :: rest)).1
      have hstep1 : (numerate_points_before_old sps (o :: rest)).getD j dfltSP =
          sps.getD j dfltSP := by
        apply getD_before_untouched
        intro hlt
        have := filter_head_min sps 0 hidx o rest hO j hj (by omega)
        rw [hq] at this
        cases this
      have hstep2 : (numerate_points_between_old
            (numerate_points_before_old sps (o :: rest)) (o :: rest)).getD j dfltSP =
          (numerate_points_before_old sps (o :: rest)).getD j dfltSP := by
        apply getD_between_untouched
        intro k hk hcon
        have := filter_consec_gap sps 0 hidx k (by rw [hO]; exact hk) j hj
          (by rw [hO]; omega) (by rw [hO]; omega)
        rw [hq] at this
        cases this
      have hl2 : (numerate_points_between_old
            (numerate_points_before_old sps (o :: rest)) (o :: rest)).length = sps.length := by
        rw [(keepsSkeleton_between (numerate_points_before_old sps (o :: rest)) (o :: rest)).1]
        exact hl1
      unfold numerate_points_after_old at h
      split at h
      · rw [Option.some.injEq] at h
        subst h
        rw [hstep2, hstep1]
      · rename_i lastO heq
        split at h
        · split at h
          · exact absurd h (by simp)
          · rw [Option.some.injEq] at h
            subst h
            have hlast : ¬ lastO.index < j := by
              intro hlt
              have := filter_last_max sps 0 hidx lastO (by rw [hO]; exact heq) j hj (by omega)
              rw [hq] at this
              cases this
            rw [getD_mapIdxFrom _ 0 _ j (by omega)]
            simp only [Nat.zero_add]
            rw [if_neg hlast, hstep2, hstep1]
        · rw [Option.some.injEq] at h
          subst h
          rw [hstep2, hstep1]

/-- `indexPoints` establishes the `index = position` invariant. -/
theorem hIdx_indexPoints (l : List StreamPoint) : hIdxFrom (indexPoints l) 0 := by
  intro j hj
  have hj' : j < l.length := by
    have := length_mapIdxFrom (fun i sp => { sp with index := i }) 0 l
    unfold indexPoints at hj
    omega
  unfold indexPoints
  rw [getD_mapIdxFrom _ 0 l j hj']

/-- Membership in `indexPoints` only changes the `index` field. -/
theorem mem_indexPoints {a : StreamPoint} {l : List StreamPoint} (h : a ∈ indexPoints l) :
    ∃ b ∈ l, a.point_id = b.point_id ∧ a.old_number = b.old_number ∧
      a.new_number = b.new_number := by
  rcases mem_mapIdxFrom.mp h with ⟨j, hj, hval⟩
  exact ⟨l.getD j dfltSP, mem_getD_of_lt hj, by rw [hval], by rw [hval], by rw [hval]⟩

/-- Every record built by `assign_points_to_streams` has
`old_number = normalizeOld raw` and `new_number = old_number`
(source lines 188-202). -/
theorem assignLine_inv {feat : Nat → PointFeat} {s : UStream} {a : StreamPoint}
    (h : a ∈ assignLine feat s) :
    a.old_number = normalizeOld (feat a.point_id).old_raw ∧ a.new_number = a.old_number := by
  unfold assignLine at h
  split at h
  · simp at h
  · rcases List.mem_filterMap.mp h with ⟨pid, _, heq⟩
    split at heq
    · cases heq
    · split at heq
      · rw [Option.some.injEq] at heq
        subst heq
        exact ⟨rfl, rfl⟩
      · cases heq

/-- The invariant carried into the Sequencer by the sorted, indexed list. -/
theorem mid_inv {feat : Nat → PointFeat} {s : UStream} {a : StreamPoint}
    (h : a ∈ indexPoints (sortPoints (assignLine feat s))) :
    a.old_number = normalizeOld (feat a.point_id).old_raw ∧ a.new_number = a.old_number := by
  rcases mem_indexPoints h with ⟨b, hb, hpid, hold, hnew⟩
  have hb' := mem_sortPoints.mp hb
  have := assignLine_inv hb'
  rw [hpid, hold, hnew]
  exact this

/-! ## Claim theorems -/

/-- The point features of the C1 scenario: five points on one stream,
ordered by distance as [unnumbered, legacy "5P", unnumbered, unnumbered,
legacy "8P"]. -/
def c1_feat : Nat → PointFeat := fun pid =>
  { geomEmpty := false
    old_raw := [none, some "5P", none, none, some "8P"].getD pid none }

/-- The C1 scenario's unified stream: all five points are bounding-box
candidates and intersect the buffered geometry, at distances 0..4. -/
def c1_stream : UStream :=
  { mark := "A"
    geomEmpty := false
    candidates := [0, 1, 2, 3, 4]
    buffHit := fun _ => true
    distAt := fun pid => (pid : Int) }

/-- C1: for a line whose sorted points are [unnumbered, legacy "5P",
unnumbered, unnumbered, legacy "8P"], the Sequencer assigns
["1Pnowy", "5P", "5Pa", "5Pb", "8P"]: the before-zone point gets
"{order_index+1}Pnowy", the between-zone points get the preceding legacy
identifier stripped of its trailing marker plus "P" plus letter suffixes
"a", "b", and the legacy points keep their identifiers. -/
theorem claim_C1 :
    (processLine c1_feat c1_stream).map (fun l => l.map (fun sp => sp.new_number)) =
      some [some "1Pnowy", some "5P", some "5Pa", some "5Pb", some "8P"] := by
  decide

/-- C2: the letter-suffix function satisfies the stated recursion (single
letter at offset `n` from `'a'` for `n < 26`; `letter (n / 26 - 1)`
concatenated with `letter (n % 26)` for `n ≥ 26`) together with all six
stated values. -/
theorem claim_C2 :
    (∀ n, n < 26 → generate_letter_suffix n = String.singleton (Char.ofNat (97 + n))) ∧
    (∀ n, 26 ≤ n → generate_letter_suffix n =
      generate_letter_suffix (n / 26 - 1) ++ String.singleton (Char.ofNat (97 + n % 26))) ∧
    generate_letter_suffix 0 = "a" ∧ generate_letter_suffix 25 = "z" ∧
    generate_letter_suffix 26 = "aa" ∧ generate_letter_suffix 27 = "ab" ∧
    generate_letter_suffix 701 = "zz" ∧ generate_letter_suffix 702 = "aaa" :=
  ⟨fun _ h => generate_letter_suffix_lt h, fun _ h => generate_letter_suffix_ge h,
    by decide, by decide, by decide, by decide, by decide, by decide⟩

/-- Witness for C2 at `n = 30` and `n = 5`. -/
theorem claim_C2_witness :
    generate_letter_suffix 30 =
      generate_letter_suffix (30 / 26 - 1) ++ String.singleton (Char.ofNat (97 + 30 % 26)) :=
  claim_C2.2.1 30 (by norm_num)

/-- C10: the recursion is well-founded — for `num ≥ 26` the recursive
argument `num / 26 - 1` is strictly smaller than `num` — and the suffix
generator is total, always returning a non-empty string. -/
theorem claim_C10 :
    ∀ num : Nat, (26 ≤ num → num / 26 - 1 < num) ∧ 1 ≤ (generate_letter_suffix num).length := by
  intro num
  constructor
  · intro h
    have := Nat.div_lt_self (show 0 < num by omega) (show 1 < 26 by omega)
    omega
  · by_cases h : num < 26
    · rw [generate_letter_suffix_lt h]
      have : (String.singleton (Char.ofNat (97 + num))).length = 1 := by
        simp [String.singleton, String.length, String.push]
      omega
    · rw [generate_letter_suffix_ge (by omega)]
      rw [String.length_append]
      have : (String.singleton (Char.ofNat (97 + num % 26))).length = 1 := by
        simp [String.singleton, String.length, String.push]
      omega

/-- Witness for C10 at `num = 30`. -/
theorem claim_C10_witness : 30 / 26 - 1 < 30 ∧ 1 ≤ (generate_letter_suffix 30).length :=
  ⟨(claim_C10 30).1 (by norm_num), (claim_C10 30).2⟩

/-- C4: on a line with zero legacy points every position `j` of the sorted
list receives `"{j+1}P"`. -/
theorem claim_C4 :
    ∀ (sps : List StreamPoint), sps.filter hasOld = [] →
      ∀ j, j < sps.length →
        ∃ out, numerate_points_line sps = some out ∧
          (out.getD j dfltSP).new_number = some (Nat.repr (j + 1) ++ "P") := by
  intro sps hemp j hj
  have hline : numerate_points_line sps =
      some (mapIdxFrom (fun i sp => { sp with new_number := some (Nat.repr (i + 1) ++ "P") })
        0 sps) := by
    simp [numerate_points_line, hemp]
  refine ⟨_, hline, ?_⟩
  rw [getD_mapIdxFrom _ 0 sps j hj]
  simp only [Nat.zero_add]

/-- Witness points for C4: three unnumbered points in sorted order. -/
def c4_points : List StreamPoint :=
  [⟨0, 0, none, none, 0⟩, ⟨1, 1, none, none, 1⟩, ⟨2, 2, none, none, 2⟩]

/-- Witness for C4: the middle of the three points gets "2P". -/
theorem claim_C4_witness :
    ∃ out, numerate_points_line c4_points = some out ∧
      (out.getD 1 dfltSP).new_number = some (Nat.repr (1 + 1) ++ "P") :=
  claim_C4 c4_points (by decide) 1 (by decide)

/-- Unfolding equation for the after-zone pass when the last legacy point
and its parsed base are known. -/
theorem after_eq_some (sps old : List StreamPoint) (lastO : StreamPoint)
    (hlast : old.getLast? = some lastO) (hlen : lastO.index + 1 < sps.length)
    {B : Nat} (hB : pyInt? (pyStripLast (lastO.old_number.getD "")) = some B) :
    numerate_points_after_old sps old =
      some (mapIdxFrom
        (fun i sp =>
          if lastO.index < i then
            { sp with new_number := some (Nat.repr (B + (i - lastO.index)) ++ "P") }
          else sp)
        0 sps) := by
  unfold numerate_points_after_old
  split
  · rename_i heq
    rw [heq] at hlast
    cases hlast
  · rename_i lastO' heq
    rw [heq] at hlast
    rw [Option.some.injEq] at hlast
    subst hlast
    rw [if_pos hlen]
    split
    · rename_i hp
      rw [hp] at hB
      cases hB
    · rename_i base hp
      rw [hp] at hB
      rw [Option.some.injEq] at hB
      subst hB
      rfl

/-- C3: on a line in which the last legacy point (at sorted position
`lastO.index`) is followed by at least one point, the numeric base `B` is
obtained by stripping the legacy identifier's final character and parsing
the remaining digits, and the point at 1-based offset `k` after the last
legacy point receives `"{B+k}P"` (no letter suffix). -/
theorem claim_C3 :
    ∀ (sps : List StreamPoint), hIdxFrom sps 0 →
      ∀ lastO, (sps.filter hasOld).getLast? = some lastO →
        ∀ B, pyInt? (pyStripLast (lastO.old_number.getD "")) = some B →
          ∀ k, 1 ≤ k → lastO.index + k < sps.length →
            ∃ out, numerate_points_line sps = some out ∧
              (out.getD (lastO.index + k) dfltSP).new_number =
                some (Nat.repr (B + k) ++ "P") := by
  intro sps _ lastO hlast B hB k hk hrange
  have hne : sps.filter hasOld ≠ [] := by
    intro hnil
    rw [hnil] at hlast
    simp at hlast
  have hempF : ¬ ((sps.filter hasOld).isEmpty = true) := fun hcon =>
    hne (List.isEmpty_iff.mp hcon)
  have hl1 : (numerate_points_before_old sps (sps.filter hasOld)).length = sps.length :=
    (keepsSkeleton_before sps (sps.filter hasOld)).1
  have hl2 : (numerate_points_between_old
      (numerate_points_before_old sps (sps.filter hasOld)) (sps.filter hasOld)).length =
        sps.length := by
    rw [(keepsSkeleton_between (numerate_points_before_old sps (sps.filter hasOld))
      (sps.filter hasOld)).1]
    exact hl1
  have hafter := after_eq_some
    (numerate_points_between_old (numerate_points_before_old sps (sps.filter hasOld))
      (sps.filter hasOld))
    (sps.filter hasOld) lastO hlast (by omega) hB
  refine ⟨mapIdxFrom
      (fun i sp =>
        if lastO.index < i then
          { sp with new_number := some (Nat.repr (B + (i - lastO.index)) ++ "P") }
        else sp)
      0 (numerate_points_between_old (numerate_points_before_old sps (sps.filter hasOld))
          (sps.filter hasOld)), ?_, ?_⟩
  · simp only [numerate_points_line]
    rw [if_neg hempF]
    exact hafter
  · rw [getD_mapIdxFrom _ 0 _ (lastO.index + k) (by omega)]
    simp only [Nat.zero_add]
    rw [if_pos (by omega)]
    have harith : lastO.index + k - lastO.index = k := by omega
    rw [harith]

/-- Witness points for C3: legacy "12P" first, then two unnumbered
points. -/
def c3_points : List StreamPoint :=
  [⟨0, 0, some "12P", some "12P", 0⟩, ⟨1, 1, none, none, 1⟩, ⟨2, 2, none, none, 2⟩]

/-- The last (only) legacy point of `c3_points`. -/
def c3_last : StreamPoint := ⟨0, 0, some "12P", some "12P", 0⟩

/-- Witness for C3: the second trailing point gets "14P" (= 12 + 2). -/
theorem claim_C3_witness :
    ∃ out, numerate_points_line c3_points = some out ∧
      (out.getD (c3_last.index + 2) dfltSP).new_number = some (Nat.repr (12 + 2) ++ "P") :=
  claim_C3 c3_points
    (by
      intro j hj
      simp only [c3_points, List.length_cons, List.length_nil] at hj
      interval_cases j <;> rfl)
    c3_last (by decide) 12 (by decide) 2 (by decide) (by decide)

/-- C5: through the whole per-stream pipeline (assignment, sorting,
indexing, numbering) every point whose legacy identifier was present,
non-null and non-blank keeps it as its final `new_number`; and a point
whose raw legacy attribute is the blank string is treated as having no
legacy number at all. -/
theorem claim_C5 :
    ∀ (feat : Nat → PointFeat) (s : UStream) (out : List StreamPoint),
      processLine feat s = some out →
      (∀ q ∈ out, ∀ L, q.old_number = some L → q.new_number = some L) ∧
      (∀ q ∈ out, (feat q.point_id).old_raw = some "" → q.old_number = none) := by
  intro feat s out h
  unfold processLine at h
  have hidx := hIdx_indexPoints (sortPoints (assignLine feat s))
  have hskel := keepsSkeleton_numerate h
  have hlen : out.length = (indexPoints (sortPoints (assignLine feat s))).length := hskel.1
  constructor
  · intro q hq L hL
    rcases mem_iff_getD.mp hq with ⟨j, hj, hv⟩
    have hjm : j < (indexPoints (sortPoints (assignLine feat s))).length := by omega
    have holdeq := (hskel.2 j hjm).2.2.1
    have hqold : ((indexPoints (sortPoints (assignLine feat s))).getD j dfltSP).old_number =
        some L := by
      rw [← holdeq, hv, hL]
    have hqoldb : hasOld ((indexPoints (sortPoints (assignLine feat s))).getD j dfltSP) = true := by
      unfold hasOld
      rw [hqold]
      rfl
    have huntouched := numerate_untouched hidx h j hjm hqoldb
    have hinv := mid_inv (mem_getD_of_lt hjm)
    rw [← hv, huntouched, hinv.2, hqold]
  · intro q hq hblank
    rcases mem_iff_getD.mp hq with ⟨j, hj, hv⟩
    have hjm : j < (indexPoints (sortPoints (assignLine feat s))).length := by omega
    have hinv := mid_inv (mem_getD_of_lt hjm)
    have hqold : q.old_number = normalizeOld (feat q.point_id).old_raw := by
      rw [← hv, (hskel.2 j hjm).2.2.1, hinv.1, (hskel.2 j hjm).1]
    rw [hqold, hblank]
    simp [normalizeOld]

/-- Witness features for C5: point 0 carries legacy "7P", point 1 a blank
legacy field. -/
def c5_feat : Nat → PointFeat := fun pid =>
  { geomEmpty := false
    old_raw := [some "7P", some ""].getD pid none }

/-- Witness stream for C5. -/
def c5_stream : UStream :=
  { mark := "B"
    geomEmpty := false
    candidates := [0, 1]
    buffHit := fun _ => true
    distAt := fun pid => (pid : Int) }

/-- Witness output list for C5. -/
def c5_out : List StreamPoint :=
  [⟨0, 0, some "7P", some "7P", 0⟩, ⟨1, 1, none, some "8P", 1⟩]

/-- Witness for C5: the legacy point of the concrete run keeps "7P". -/
theorem claim_C5_witness :
    (⟨0, 0, some "7P", some "7P", 0⟩ : StreamPoint).new_number = some "7P" :=
  (claim_C5 c5_feat c5_stream c5_out (by decide)).1
    ⟨0, 0, some "7P", some "7P", 0⟩ (by decide) "7P" rfl

/-- Convenience constructor for vertices. -/
def mkPt (x y : Int) : Pt := (x, y)

/-- Whether point `pid` appears in stream `s`'s StreamPoint list. -/
def appearsIn (feat : Nat → PointFeat) (s : UStream) (pid : Nat) : Bool :=
  ((assignLine feat s).map (fun sp => sp.point_id)).contains pid

/-- C6 as stated: every point within the incidence tolerance of at least
one unified polyline appears in exactly one StreamPoint list. -/
def c6_claimed : Prop :=
  ∀ (feat : Nat → PointFeat) (streams : List UStream),
    (streams.map (fun s => s.mark)).Nodup →
    ∀ pid, (∃ s ∈ streams, s.buffHit pid = true) →
      streams.countP (fun s => appearsIn feat s pid) = 1

/-- A point dataset in which every point has non-empty geometry and no
legacy number. -/
def c6_feat : Nat → PointFeat := fun _ => { geomEmpty := false, old_raw := none }

/-- Two unified streams that both match point 0. -/
def c6_streams : List UStream :=
  [{ mark := "A", geomEmpty := false, candidates := [0], buffHit := fun _ => true,
     distAt := fun _ => 0 },
   { mark := "B", geomEmpty := false, candidates := [0], buffHit := fun _ => true,
     distAt := fun _ => 0 }]

/-- C6 counterexample: `assign_points_to_streams` has no exclusivity
check, so a point within tolerance of two unified polylines is appended
to both StreamPoint lists; it appears in 2 lists, not exactly 1. -/
theorem claim_C6_counterexample : ¬ c6_claimed := by
  intro h
  have h2 := h c6_feat c6_streams (by decide) 0
    ⟨{ mark := "A", geomEmpty := false, candidates := [0], buffHit := fun _ => true,
       distAt := fun _ => 0 }, List.mem_cons_self _ _, rfl⟩
  revert h2
  decide

/-- C6 amended: a point appears in the StreamPoint list of exactly those
streams whose bounding-box query returns it, whose geometry is non-empty,
and whose buffered geometry it intersects — possibly several; a point
matching no stream appears in no list. -/
theorem claim_C6_amended :
    ∀ (feat : Nat → PointFeat) (s : UStream) (pid : Nat),
      appearsIn feat s pid = true ↔
        (s.geomEmpty = false ∧ pid ∈ s.candidates ∧ (feat pid).geomEmpty = false ∧
          s.buffHit pid = true) := by
  intro feat s pid
  unfold appearsIn assignLine
  rw [List.elem_iff]
  constructor
  · intro h
    rcases hg : s.geomEmpty with _ | _
    · rw [hg] at h
      simp only [if_neg Bool.false_ne_true] at h
      rcases List.mem_map.mp h with ⟨sp, hsp, hpid⟩
      rcases List.mem_filterMap.mp hsp with ⟨c, hc, heq⟩
      split at heq
      · cases heq
      · rename_i hge
        split at heq
        · rename_i hbh
          rw [Option.some.injEq] at heq
          subst heq
          have hcpid : c = pid := hpid
          subst hcpid
          exact ⟨rfl, hc, by simpa using hge, hbh⟩
        · cases heq
    · rw [hg] at h
      simp at h
  · rintro ⟨hg, hc, hge, hbh⟩
    rw [hg]
    simp only [if_neg Bool.false_ne_true]
    apply List.mem_map.mpr
    refine ⟨mkStreamPoint feat s pid, ?_, rfl⟩
    apply List.mem_filterMap.mpr
    refine ⟨pid, hc, ?_⟩
    rw [if_neg (by rw [hge]; exact Bool.false_ne_true), if_pos hbh]

/-- Shared unfolding: once the merged polyline is known and non-empty, the
unifier returns it reversed iff its first vertex lies in the pre-merge
end-vertex set. -/
theorem unified_eq_of_merged (mergeFn : List (List Pt) → List (List Pt))
    (fs : List StreamFeature) (mark : String) (p : Pt) (rest : List Pt)
    (h : mergedFor mergeFn fs mark = p :: rest) :
    unified_geometry_for mergeFn fs mark =
      Except.ok (if p ∈ endPoints fs mark then (p :: rest).reverse else (p :: rest)) := by
  unfold unified_geometry_for
  rw [h]
  show (if p ∈ endPoints fs mark then Except.ok (p :: rest).reverse
      else Except.ok (p :: rest)) = _
  by_cases hm : p ∈ endPoints fs mark
  · rw [if_pos hm, if_pos hm]
  · rw [if_neg hm, if_neg hm]

/-- Every polyline accepted by the validity filter has at least two
vertices. -/
theorem valid_len {fs : List StreamFeature} {mark : String} {g : List Pt}
    (h : g ∈ validForMark fs mark) : 2 ≤ g.length := by
  unfold validForMark at h
  rcases List.mem_map.mp h with ⟨s, hs, hg⟩
  have := (List.mem_filter.mp hs).2
  subst hg
  simp only [Bool.and_eq_true, decide_eq_true_eq] at this
  exact this.2

/-- C7 as stated: the merged sequence is reversed iff its first vertex is
in the pre-merge end set AND not in the pre-merge start set. -/
def c7_claimed : Prop :=
  ∀ (mergeFn : List (List Pt) → List (List Pt)) (fs : List StreamFeature) (mark : String)
    (p : Pt) (rest : List Pt),
    mergedFor mergeFn fs mark = p :: rest →
    unified_geometry_for mergeFn fs mark =
      Except.ok (if p ∈ endPoints fs mark ∧ p ∉ startPoints fs mark
        then (p :: rest).reverse else (p :: rest))

/-- Two fragments of "A" running in opposite directions: every vertex is
both a start and an end vertex. -/
def c7_fs : List StreamFeature :=
  [⟨some "A", [mkPt 0 0, mkPt 1 1]⟩, ⟨some "A", [mkPt 1 1, mkPt 0 0]⟩]

/-- A merge service that returns the single merged line `[(0,0),(1,1)]`. -/
def c7_merge : List (List Pt) → List (List Pt) := fun _ => [[mkPt 0 0, mkPt 1 1]]

/-- C7 counterexample: the code (source line 147) checks only membership
in the end-vertex set, not absence from the start-vertex set.  Here the
merged first vertex (0,0) lies in both sets: the code reverses, while the
claimed rule would not. -/
theorem claim_C7_counterexample : ¬ c7_claimed := by
  intro h
  have h2 := h c7_merge c7_fs "A" (mkPt 0 0) [mkPt 1 1] (by decide)
  have h3 : unified_geometry_for c7_merge c7_fs "A" =
      Except.ok [mkPt 1 1, mkPt 0 0] := by rfl
  rw [h3] at h2
  rw [if_neg (by decide)] at h2
  exact absurd (Except.ok.inj h2) (by decide)

/-- C7 amended: after merging, the vertex sequence is reversed iff the
merged polyline's first vertex belongs to the pre-merge end-vertex set —
with no condition on the start-vertex set. -/
theorem claim_C7_amended :
    ∀ (mergeFn : List (List Pt) → List (List Pt)) (fs : List StreamFeature) (mark : String)
      (p : Pt) (rest : List Pt),
      mergedFor mergeFn fs mark = p :: rest →
      unified_geometry_for mergeFn fs mark =
        Except.ok (if p ∈ endPoints fs mark then (p :: rest).reverse else (p :: rest)) := by
  intro mergeFn fs mark p rest h
  exact unified_eq_of_merged mergeFn fs mark p rest h

/-- Witness fragments for C7: one open fragment of "A". -/
def c7w_fs : List StreamFeature := [⟨some "A", [mkPt 0 0, mkPt 1 1]⟩]

/-- Witness merge service for C7 (unused by the single-fragment path). -/
def c7w_merge : List (List Pt) → List (List Pt) := fun _ => []

/-- Witness for C7 (amended): the open single fragment's first vertex is
not an end vertex, so the sequence is kept. -/
theorem claim_C7_witness :
    unified_geometry_for c7w_merge c7w_fs "A" = Except.ok [mkPt 0 0, mkPt 1 1] := by
  rw [claim_C7_amended c7w_merge c7w_fs "A" (mkPt 0 0) [mkPt 1 1] (by decide)]
  rw [if_neg (by decide)]

/-- C8 as stated: with exactly one valid fragment the unified polyline is
that fragment's vertex sequence unchanged. -/
def c8_claimed : Prop :=
  ∀ (mergeFn : List (List Pt) → List (List Pt)) (fs : List StreamFeature) (mark : String)
    (f : List Pt), validForMark fs mark = [f] →
    unified_geometry_for mergeFn fs mark = Except.ok f

/-- A single closed fragment (first vertex = last vertex). -/
def c8_fs : List StreamFeature :=
  [⟨some "A", [mkPt 0 0, mkPt 1 0, mkPt 1 1, mkPt 0 0]⟩]

/-- A merge service (never consulted for a single fragment). -/
def c8_merge : List (List Pt) → List (List Pt) := fun _ => []

/-- C8 counterexample: for a closed single fragment the first vertex lies
in the end-vertex set, so the direction-correction step reverses the
sequence instead of leaving it unchanged. -/
theorem claim_C8_counterexample : ¬ c8_claimed := by
  intro h
  have h2 := h c8_merge c8_fs "A" [mkPt 0 0, mkPt 1 0, mkPt 1 1, mkPt 0 0] (by decide)
  have h3 : unified_geometry_for c8_merge c8_fs "A" =
      Except.ok [mkPt 0 0, mkPt 1 1, mkPt 1 0, mkPt 0 0] := by rfl
  rw [h3] at h2
  exact absurd (Except.ok.inj h2) (by decide)

/-- C8 amended: with exactly one valid fragment the unified polyline is
that fragment unchanged — unless the fragment is closed (its first vertex
equals its last), in which case the direction correction reverses it. -/
theorem claim_C8_amended :
    ∀ (mergeFn : List (List Pt) → List (List Pt)) (fs : List StreamFeature) (mark : String)
      (f : List Pt), validForMark fs mark = [f] →
      unified_geometry_for mergeFn fs mark =
        Except.ok (if f.headI = f.getLastD (mkPt 0 0) then f.reverse else f) := by
  intro mergeFn fs mark f hval
  have hlen : 2 ≤ f.length := valid_len (by rw [hval]; exact List.mem_singleton.mpr rfl)
  obtain ⟨p, rest, rfl⟩ : ∃ p rest, f = p :: rest := by
    cases f with
    | nil => simp at hlen
    | cons p rest => exact ⟨p, rest, rfl⟩
  have hmf : mergedFor mergeFn fs mark = p :: rest := by
    unfold mergedFor
    rw [hval]
  have hend : endPoints fs mark = [(p :: rest).getLastD (mkPt 0 0)] := by
    unfold endPoints
    rw [hval]
    rfl
  rw [unified_eq_of_merged mergeFn fs mark p rest hmf, hend]
  simp only [List.headI]
  by_cases hm : p = (p :: rest).getLastD (mkPt 0 0)
  · rw [if_pos (List.mem_singleton.mpr hm), if_pos hm]
  · rw [if_neg (fun hc => hm (List.mem_singleton.mp hc)), if_neg hm]

/-- Witness fragments for C8: one open fragment. -/
def c8w_fs : List StreamFeature := [⟨some "A", [mkPt 0 0, mkPt 2 0]⟩]

/-- Witness for C8 (amended): an open single fragment is returned
unchanged. -/
theorem claim_C8_witness :
    unified_geometry_for c8_merge c8w_fs "A" = Except.ok [mkPt 0 0, mkPt 2 0] := by
  rw [claim_C8_amended c8_merge c8w_fs "A" [mkPt 0 0, mkPt 2 0] (by decide)]
  rw [if_neg (by decide)]

/-- C9 as stated: a merge that still yields multiple disjoint parts makes
the stage fail with a `RuntimeError`-class failure instead of producing a
unified polyline for that identifier. -/
def c9_claimed : Prop :=
  ∀ (mergeFn : List (List Pt) → List (List Pt)) (fs : List StreamFeature) (mark : String),
    2 ≤ (validForMark fs mark).length →
    2 ≤ (mergeFn (validForMark fs mark)).length →
    ∃ e, unified_geometry_for mergeFn fs mark = Except.error e

/-- Two disjoint fragments of "A". -/
def c9_fs : List StreamFeature :=
  [⟨some "A", [mkPt 0 0, mkPt 1 0]⟩, ⟨some "A", [mkPt 5 5, mkPt 6 5]⟩]

/-- A merge service whose result still has two disjoint parts. -/
def c9_merge : List (List Pt) → List (List Pt) :=
  fun _ => [[mkPt 0 0, mkPt 1 0], [mkPt 5 5, mkPt 6 5]]

/-- C9 counterexample: a multi-part merge result does not raise; the code
(source lines 138-139) silently converts to single type, keeping the
first part, and the stage succeeds for that identifier. -/
theorem claim_C9_counterexample : ¬ c9_claimed := by
  intro h
  rcases h c9_merge c9_fs "A" (by decide) (by decide) with ⟨e, he⟩
  have h3 : unified_geometry_for c9_merge c9_fs "A" =
      Except.ok [mkPt 0 0, mkPt 1 0] := by rfl
  rw [h3] at he
  cases he

/-- C9 amended: when the merge result is multi-part, the stage does not
fail: `convertToSingleType` keeps only the first part, which is then
direction-corrected and returned as the identifier's unified polyline. -/
theorem claim_C9_amended :
    ∀ (mergeFn : List (List Pt) → List (List Pt)) (fs : List StreamFeature) (mark : String)
      (f1 f2 : List Pt) (fr : List (List Pt)) (p : Pt) (ptail : List Pt)
      (prest : List (List Pt)),
      validForMark fs mark = f1 :: f2 :: fr →
      mergeFn (f1 :: f2 :: fr) = (p :: ptail) :: prest →
      unified_geometry_for mergeFn fs mark =
        Except.ok (if p ∈ endPoints fs mark then (p :: ptail).reverse else (p :: ptail)) := by
  intro mergeFn fs mark f1 f2 fr p ptail prest hval hmerge
  have hmf : mergedFor mergeFn fs mark = p :: ptail := by
    unfold mergedFor
    rw [hval]
    show (match mergeFn (f1 :: f2 :: fr) with
      | [] => ([] : List Pt)
      | part :: _ => part) = p :: ptail
    rw [hmerge]
  exact unified_eq_of_merged mergeFn fs mark p ptail hmf

/-- Witness for C9 (amended): the two-part merge result of the concrete
instance yields the first part (not reversed, since (0,0) is no end
vertex). -/
theorem claim_C9_witness :
    unified_geometry_for c9_merge c9_fs "A" = Except.ok [mkPt 0 0, mkPt 1 0] := by
  rw [claim_C9_amended c9_merge c9_fs "A" [mkPt 0 0, mkPt 1 0] [mkPt 5 5, mkPt 6 5] []
    (mkPt 0 0) [mkPt 1 0] [[mkPt 5 5, mkPt 6 5]] (by decide) (by decide)]
  rw [if_neg (by decide)]
